import Mathlib

/-!
Verification of the redpanda cloud-storage cache service and access-time
tracker against its specification, together with the raft group_manager
leadership-notification registry.

The cache implementation body (`cache_service.cc`, `access_time_tracker.cc`)
is not part of the provided sources (only its tests are), so the cache and
tracker are modelled from the specification; `group_manager.h` contains the
real inline implementations of the notification registry, which are embedded
directly.
-/

set_option maxHeartbeats 1000000

namespace CloudStorage

/-- A filesystem path, as a list of name segments (slash-separated in C++). -/
abbrev Path := List String

/-- File contents, as a list of bytes. -/
abbrev Data := List Nat

/-- Association-list lookup: first entry whose key equals `k`. -/
def lookupA {κ α : Type} [DecidableEq κ] : List (κ × α) → κ → Option α
  | [], _ => none
  | (q, v) :: rest, k => if q = k then some v else lookupA rest k

/-- Association-list erase: drop every entry whose key equals `k`. -/
def eraseA {κ α : Type} [DecidableEq κ] : List (κ × α) → κ → List (κ × α)
  | [], _ => []
  | (q, v) :: rest, k => if q = k then eraseA rest k else (q, v) :: eraseA rest k

/-- Association-list update: replace the value of the first entry with key `k`. -/
def updateA {κ α : Type} [DecidableEq κ] : List (κ × α) → κ → α → List (κ × α)
  | [], _, _ => []
  | (q, v) :: rest, k, x => if q = k then (k, x) :: rest else (q, v) :: updateA rest k x

@[simp] theorem lookupA_nil {κ α : Type} [DecidableEq κ] (k : κ) :
    lookupA ([] : List (κ × α)) k = none := rfl

@[simp] theorem lookupA_cons {κ α : Type} [DecidableEq κ] (q : κ) (v : α)
    (rest : List (κ × α)) (k : κ) :
    lookupA ((q, v) :: rest) k = if q = k then some v else lookupA rest k := rfl

theorem lookupA_eraseA {κ α : Type} [DecidableEq κ] (l : List (κ × α)) (k : κ) :
    lookupA (eraseA l k) k = none := by
  induction l with
  | nil => rfl
  | cons e rest ih =>
    obtain ⟨q, w⟩ := e
    by_cases hq : q = k
    · simpa [eraseA, hq] using ih
    · simpa [eraseA, hq, lookupA] using ih

theorem lookupA_eraseA_ne {κ α : Type} [DecidableEq κ] (l : List (κ × α)) (k k' : κ)
    (h : k' ≠ k) : lookupA (eraseA l k) k' = lookupA l k' := by
  induction l with
  | nil => rfl
  | cons e rest ih =>
    obtain ⟨q, w⟩ := e
    by_cases hq : q = k
    · have hkk' : ¬(k = k') := fun hh => h hh.symm
      simpa [eraseA, hq, lookupA, hkk'] using ih
    · by_cases hq' : q = k'
      · simp [eraseA, hq, lookupA, hq', h]
      · simpa [eraseA, hq, lookupA, hq'] using ih

theorem lookupA_updateA {κ α : Type} [DecidableEq κ] (l : List (κ × α)) (k : κ) (x : α)
    (v : α) (h : lookupA l k = some v) : lookupA (updateA l k x) k = some x := by
  induction l with
  | nil => simp [lookupA] at h
  | cons e rest ih =>
    obtain ⟨q, w⟩ := e
    by_cases hq : q = k
    · simp [updateA, hq, lookupA]
    · simp [updateA, hq, lookupA] at *
      exact ih h

theorem lookupA_updateA_ne {κ α : Type} [DecidableEq κ] (l : List (κ × α)) (k k' : κ)
    (x : α) (h : k' ≠ k) : lookupA (updateA l k x) k' = lookupA l k' := by
  induction l with
  | nil => rfl
  | cons e rest ih =>
    obtain ⟨q, w⟩ := e
    by_cases hq : q = k
    · have hne : k ≠ k' := fun hh => h hh.symm
      simp [updateA, hq, lookupA, hne]
    · by_cases hq' : q = k'
      · simp [updateA, hq, lookupA, hq', h]
      · simpa [updateA, hq, lookupA, hq'] using ih

/-- Modelled from the spec: lexical resolution of `.`/`..` segments of an
absolute path (missing `cache_service.cc` path canonicalization, §4.1).
`acc` is the already-resolved prefix; `..` pops one segment (clamped at the
filesystem root, as POSIX lexical normalization does). -/
def resolveSeg : List String → List String → List String
  | acc, [] => acc
  | acc, s :: rest =>
    if s = "." then resolveSeg acc rest
    else if s = ".." then resolveSeg acc.dropLast rest
    else resolveSeg (acc ++ [s]) rest

/-- Boolean prefix test on paths. -/
def isPre : List String → List String → Bool
  | [], _ => true
  | _ :: _, [] => false
  | a :: as, b :: bs => (a == b) && isPre as bs

/-- The cache root directory, as absolute path segments. The tests use
`test_cache_dir`. -/
def cache_root : Path := ["test_cache_dir"]

/-- The reserved temporary-file suffix (`tmp_extension` in the service). -/
def tmp_extension : String := "_tmp"

/-- Boolean prefix test on character lists. -/
def isPreC : List Char → List Char → Bool
  | [], _ => true
  | _ :: _, [] => false
  | a :: as, b :: bs => (a == b) && isPreC as bs

/-- Does `s` end with the characters `suf` (the model of `ends_with`)? -/
def endsWithC (s : String) (suf : String) : Bool :=
  isPreC suf.data.reverse s.data.reverse

/-- Does the key's final segment carry the reserved temp suffix? -/
def has_tmp_suffix (key : Path) : Bool :=
  match key.getLast? with
  | none => false
  | some s => endsWithC s tmp_extension

inductive cache_error : Type where
  | OutOfBoundsKey : cache_error
  | ReservedKey : cache_error
  deriving DecidableEq, Repr

/-- Modelled from the spec: the Path Safety Guard (§4.1, missing from
`cache_service.cc`): canonicalize `cache_root / key` lexically and verify the
result is a strict descendant of the root; then reject reserved temp-suffix
keys (out-of-bounds is detected first, the order the spec lists).
On success returns the resolved path relative to the root. -/
def access_guard (key : Path) : Except cache_error Path :=
  if isPre cache_root (resolveSeg [] (cache_root ++ key))
      ∧ resolveSeg [] (cache_root ++ key) ≠ cache_root then
    if has_tmp_suffix key then .error .ReservedKey
    else .ok ((resolveSeg [] (cache_root ++ key)).drop cache_root.length)
  else .error .OutOfBoundsKey

/-- Does a key lexically resolve to a strict descendant of the cache root? -/
def key_resolves_inside (key : Path) : Bool :=
  isPre cache_root (resolveSeg [] (cache_root ++ key))
    && decide (resolveSeg [] (cache_root ++ key) ≠ cache_root)

/-- Modelled from the spec: the quantization granularity of the Access-Time
Index (§4.3, seconds-level coarsening of a finer clock; the exact granularity
is an open implementation choice per §9). Time is a `Nat` in fine units. -/
def granularity : Nat := 1000

/-- Modelled from the spec: quantize a time, rounding up so the stored value
is never earlier than the true access time (§4.3, glossary). -/
def quantize (t : Nat) : Nat := ((t + granularity - 1) / granularity) * granularity

theorem le_quantize (t : Nat) : t ≤ quantize t := by
  unfold quantize granularity
  have h := Nat.div_add_mod (t + 1000 - 1) 1000
  have hr : (t + 1000 - 1) % 1000 < 1000 := Nat.mod_lt _ (by decide)
  omega

/-- Modelled from the spec: record an access of `key` at time `now` in the
index (§4.3): quantized, and moving the stored value only forward (ties kept
at the later write). -/
def tracker_add {κ : Type} [DecidableEq κ] (table : List (κ × Nat)) (key : κ)
    (now : Nat) : List (κ × Nat) :=
  match lookupA table key with
  | none => (key, quantize now) :: table
  | some v => updateA table key (max v (quantize now))

/-- `cache_element_status` from `cache_service.h`. -/
inductive cache_element_status : Type where
  | available : cache_element_status
  | not_available : cache_element_status
  deriving DecidableEq, Repr

/-- `cache_item` from `cache_service.h`: reported size and (modelled) the
bytes readable through the returned handle. -/
structure cache_item : Type where
  size : Nat
  body : Data
  deriving DecidableEq, Repr

/-- Modelled from the spec: the whole observable state of the cache service —
committed files (keyed by root-relative resolved path), existing directories
under the root (`[]` is the root itself), the Access-Time Index, and the
bytes-reclaimed counter (§3, §4.2, §4.4). -/
structure cache_state : Type where
  files : List (Path × Data)
  dirs : List Path
  atimes : List (Path × Nat)
  total_cleaned : Nat
  deriving DecidableEq, Repr

/-- The proper prefixes of a resolved path, shortest (the root `[]`) first:
the directories `put` must create. -/
def properPrefixes (p : Path) : List Path :=
  (List.range p.length).map (fun n => p.take n)

/-- Insert a directory if not already present. -/
def addDir (ds : List Path) (d : Path) : List Path :=
  if d ∈ ds then ds else d :: ds

/-- Modelled from the spec: `put` (§4.2). Validates the key via the guard;
creates parent directories; commits the data under the resolved path,
fully replacing any previous entry; refreshes the Access-Time Index.
On a guard error nothing is mutated (no state is returned). -/
def put (key : Path) (data : Data) (now : Nat) (st : cache_state) :
    Except cache_error cache_state :=
  match access_guard key with
  | .error e => .error e
  | .ok rel =>
    .ok { files := (rel, data) :: eraseA st.files rel
          dirs := (properPrefixes rel).foldl addDir st.dirs
          atimes := tracker_add st.atimes rel now
          total_cleaned := st.total_cleaned }

/-- Modelled from the spec: `get` (§4.2). Validates the key; absent file is
`none` (not an error); on a hit returns size and contents and refreshes the
Access-Time Index. -/
def get (key : Path) (now : Nat) (st : cache_state) :
    Except cache_error (Option cache_item × cache_state) :=
  match access_guard key with
  | .error e => .error e
  | .ok rel =>
    match lookupA st.files rel with
    | none => .ok (none, st)
    | some d => .ok (some ⟨d.length, d⟩, { st with atimes := tracker_add st.atimes rel now })

/-- Modelled from the spec: `is_cached` (§4.2): pure existence check, does
not touch the Access-Time Index. -/
def is_cached (key : Path) (st : cache_state) : cache_element_status :=
  match access_guard key with
  | .error _ => .not_available
  | .ok rel => if (lookupA st.files rel).isSome then .available else .not_available

/-- Is directory `d` non-empty: some file strictly below it, or some other
directory strictly below it? -/
def dirNonEmpty (files : List (Path × Data)) (ds : List Path) (d : Path) : Bool :=
  files.any (fun e => isPre d e.1 && decide (e.1 ≠ d))
    || ds.any (fun d2 => isPre d d2 && decide (d2 ≠ d))

/-- The strict ancestors of a path below the root, longest (deepest) first:
the upward walk order of directory pruning. -/
def ancestorsDesc (p : Path) : List Path :=
  ((List.range p.length).map (fun n => p.take n)).reverse.filter
    (fun d => decide (d ≠ []))

/-- Modelled from the spec: prune now-empty directories walking upward from
the removed file's parent, never removing the root `[]` (§4.2). Processing
deepest-first; a directory found non-empty blocks all its own ancestors, so
continuing the walk is equivalent to stopping at it. -/
def pruneDirs (files : List (Path × Data)) : List Path → List Path → List Path
  | ds, [] => ds
  | ds, d :: rest =>
    if dirNonEmpty files ds d then pruneDirs files ds rest
    else pruneDirs files (ds.filter (fun d2 => decide (d2 ≠ d))) rest

/-- Modelled from the spec: the shared removal path used by both `invalidate`
and the Eviction Sweeper (§4.2, §4.4): delete the file, prune now-empty
ancestor directories, drop the Access-Time Index entry. -/
def remove_file (rel : Path) (st : cache_state) : cache_state :=
  { files := eraseA st.files rel
    dirs := pruneDirs (eraseA st.files rel) st.dirs (ancestorsDesc rel)
    atimes := eraseA st.atimes rel
    total_cleaned := st.total_cleaned }

/-- Modelled from the spec: `invalidate` (§4.2). Validates the key; absence
is a successful no-op; otherwise removes via the shared removal path. -/
def invalidate (key : Path) (st : cache_state) : Except cache_error cache_state :=
  match access_guard key with
  | .error e => .error e
  | .ok rel =>
    match lookupA st.files rel with
    | none => .ok st
    | some _ => .ok (remove_file rel st)

/-- Total bytes in use: the sum of current file sizes (§4.4 Scanning). -/
def sizeSum (l : List (Path × Data)) : Nat := (l.map (fun e => e.2.length)).sum

/-- Total usage of the cache. -/
def usage (st : cache_state) : Nat := sizeSum st.files

/-- Eviction order on candidates: ascending estimated access time, entries
absent from the index first (treated as oldest, §4.4). -/
def oleOpt : Option Nat → Option Nat → Bool
  | none, _ => true
  | some _, none => false
  | some a, some b => a ≤ b

/-- The candidate order relation used by one sweep, w.r.t. the index frozen
at scan time. -/
def evictLE (at0 : List (Path × Nat)) (a b : Path × Data) : Prop :=
  oleOpt (lookupA at0 a.1) (lookupA at0 b.1) = true

instance evictLE_decidable (at0 : List (Path × Nat)) : DecidableRel (evictLE at0) :=
  fun _x _y => decEq _ _

/-- Modelled from the spec: the Evicting loop (§4.4 step 3): remove sorted
candidates one at a time through the shared removal path, accumulating
reclaimed bytes, until usage is at or below `max_bytes` or none remain. -/
def evictLoop (max_bytes : Nat) : List (Path × Data) → cache_state → cache_state
  | [], st => st
  | (p, d) :: rest, st =>
    if usage st ≤ max_bytes then st
    else
      evictLoop max_bytes rest
        (let st' := remove_file p st
         { st' with total_cleaned := st'.total_cleaned + d.length })

/-- Modelled from the spec: one sweep of the Eviction Sweeper (§4.4):
scan usage; at or below budget do nothing; otherwise evict candidates in
ascending estimated-access-time order (absent-from-index first). -/
def sweep (max_bytes : Nat) (st : cache_state) : cache_state :=
  if usage st ≤ max_bytes then st
  else
    evictLoop max_bytes
      (List.insertionSort (evictLE st.atimes) st.files) st

/-- Modelled from the spec: the Access-Time Index component
(`access_time_tracker`, §4.3; its implementation is missing from the
sources): an in-memory mapping from key to quantized timestamp. -/
structure access_time_tracker : Type where
  table : List (String × Nat)
  deriving DecidableEq, Repr

/-- `add_timestamp` (§4.3): record an access, quantized, moving the stored
value only forward. -/
def add_timestamp (tr : access_time_tracker) (key : String) (t : Nat) :
    access_time_tracker :=
  ⟨tracker_add tr.table key t⟩

/-- `estimate_timestamp` (§4.3): the stored quantized value, or `none` for a
key never recorded. -/
def estimate_timestamp (tr : access_time_tracker) (key : String) : Option Nat :=
  lookupA tr.table key

/-- `remove` (§4.3): drop a key's entry. -/
def tracker_remove (tr : access_time_tracker) (key : String) : access_time_tracker :=
  ⟨eraseA tr.table key⟩

/-- Record a whole list of (key, time) pairs, in order. -/
def record_all (ops : List (String × Nat)) : access_time_tracker :=
  ops.foldl (fun tr e => add_timestamp tr e.1 e.2) ⟨[]⟩

/-- Modelled from the spec: one serialized index entry — key length, key
characters, then the timestamp (§4.3 serialization; the byte layout is an
open implementation choice per §9, any format with an exact round trip is
conformant). -/
def encodeEntry (e : String × Nat) : List Nat :=
  e.1.length :: (e.1.data.map Char.toNat ++ e.2 :: [])

/-- Modelled from the spec: `to_iobuf` — entry count followed by the
serialized entries. -/
def to_iobuf (tr : access_time_tracker) : List Nat :=
  tr.table.length :: tr.table.foldr (fun e acc => encodeEntry e ++ acc) []

/-- Parse one serialized entry; `none` on truncated input. -/
def parseEntry (bs : List Nat) : Option ((String × Nat) × List Nat) :=
  match bs with
  | [] => none
  | len :: rest =>
    if rest.length < len then none
    else
      match rest.drop len with
      | [] => none
      | t :: rest2 => some ((String.mk ((rest.take len).map Char.ofNat), t), rest2)

/-- Parse `n` serialized entries. -/
def parseEntries : Nat → List Nat → Option (List (String × Nat) × List Nat)
  | 0, bs => some ([], bs)
  | n + 1, bs =>
    (parseEntry bs).bind fun er =>
      (parseEntries n er.2).bind fun esr => some (er.1 :: esr.1, esr.2)

/-- Modelled from the spec: `from_iobuf` — rebuild a tracker from serialized
bytes; fails on malformed input or trailing garbage. -/
def from_iobuf (bs : List Nat) : Option access_time_tracker :=
  match bs with
  | [] => none
  | n :: rest =>
    (parseEntries n rest).bind fun esr =>
      if esr.2 = [] then some ⟨esr.1⟩ else none

end CloudStorage

namespace Raft

/-- State of the `raft::group_manager` notification registry
(`group_manager.h`): the running id counter `_notification_id` and the
registered `_notifications` list; callbacks are identified by an opaque
label. -/
structure group_manager_state : Type where
  notification_id : Nat
  notifications : List (Nat × Nat)
  deriving DecidableEq, Repr

/-- `register_leadership_notification` (`group_manager.h:67-76`): take the
current counter as the new id, post-increment the counter, and
`emplace_back` the (id, callback) pair. (The call of the callback on every
existing group performs no state mutation and is not modelled.) -/
def register_leadership_notification (st : group_manager_state) (cb : Nat) :
    Nat × group_manager_state :=
  (st.notification_id,
   { notification_id := st.notification_id + 1
     notifications := st.notifications ++ [(st.notification_id, cb)] })

/-- `std::find_if` + single `erase` over the notifications list: drop the
first pair whose id matches, keep everything else. -/
def eraseFirstNotification : List (Nat × Nat) → Nat → List (Nat × Nat)
  | [], _ => []
  | (i, c) :: rest, id => if i = id then rest else (i, c) :: eraseFirstNotification rest id

/-- `unregister_leadership_notification` (`group_manager.h:78-88`): erase the
first (only) matching registration; no effect when the id is absent. -/
def unregister_leadership_notification (st : group_manager_state) (id : Nat) :
    group_manager_state :=
  { st with notifications := eraseFirstNotification st.notifications id }

/-- Register a list of callbacks in order, collecting the returned ids. -/
def registerAll (st : group_manager_state) :
    List Nat → List Nat × group_manager_state
  | [] => ([], st)
  | cb :: cbs =>
    let r := register_leadership_notification st cb
    let rs := registerAll r.2 cbs
    (r.1 :: rs.1, rs.2)

/-- The reachable-state invariant of the registry: registered ids are
strictly increasing in list order and all below the counter. -/
def gm_inv (st : group_manager_state) : Prop :=
  List.Pairwise (· < ·) (st.notifications.map Prod.fst)
    ∧ ∀ i ∈ st.notifications.map Prod.fst, i < st.notification_id

end Raft

namespace CloudStorage

/-- C1: for every key `k` that carries no reserved temp suffix and resolves
inside the cache root (i.e. the guard accepts it, yielding resolved path
`rel`), `put(k, data)` followed by `get(k)` returns a handle whose contents
equal `data` unchanged and whose reported size equals `data.length`. -/
theorem get_after_put (key : Path) (data : Data) (now now2 : Nat)
    (st : cache_state) (rel : Path) (hg : access_guard key = .ok rel) :
    ∃ st', put key data now st = .ok st' ∧
      ∃ st'', get key now2 st' = .ok (some ⟨data.length, data⟩, st'') := by
  unfold put get
  rw [hg]
  refine ⟨_, rfl, ?_⟩
  simp [lookupA]

/-- Witness for C1 at a concrete key and contents. -/
theorem get_after_put_witness :
    access_guard ["test", "file.txt"] = .ok ["test", "file.txt"] ∧
    ∃ st', put ["test", "file.txt"] [97, 98] 0 ⟨[], [[]], [], 0⟩ = .ok st' ∧
      ∃ st'', get ["test", "file.txt"] 1 st' = .ok (some ⟨2, [97, 98]⟩, st'') :=
  ⟨by rfl, get_after_put ["test", "file.txt"] [97, 98] 0 1 ⟨[], [[]], [], 0⟩
    ["test", "file.txt"] (by rfl)⟩

/-- C3: for every valid key, `put(k, d1)` then `put(k, d2)` then `get(k)`
returns exactly `d2` with size `d2.length`: overwrite is a full replace. -/
theorem put_rewrites_file (key : Path) (d1 d2 : Data) (now1 now2 now3 : Nat)
    (st : cache_state) (rel : Path) (hg : access_guard key = .ok rel) :
    ∃ st1, put key d1 now1 st = .ok st1 ∧
      ∃ st2, put key d2 now2 st1 = .ok st2 ∧
        ∃ st3, get key now3 st2 = .ok (some ⟨d2.length, d2⟩, st3) := by
  unfold put get
  rw [hg]
  refine ⟨_, rfl, _, rfl, ?_⟩
  simp [lookupA]

/-- Witness for C3: overwriting `[97]` with `[98, 99]` yields `[98, 99]`. -/
theorem put_rewrites_file_witness :
    access_guard ["k.txt"] = .ok ["k.txt"] ∧
    ∃ st1, put ["k.txt"] [97] 0 ⟨[], [[]], [], 0⟩ = .ok st1 ∧
      ∃ st2, put ["k.txt"] [98, 99] 1 st1 = .ok st2 ∧
        ∃ st3, get ["k.txt"] 2 st2 = .ok (some ⟨2, [98, 99]⟩, st3) :=
  ⟨by rfl, put_rewrites_file ["k.txt"] [97] [98, 99] 0 1 2 ⟨[], [[]], [], 0⟩
    ["k.txt"] (by rfl)⟩

/-- C5: a sweep of a cache whose total usage is at or below the configured
max (the boundary is inclusive, and this covers the empty cache) deletes
nothing and leaves `total_cleaned` — and the whole state — unchanged. -/
theorem sweep_at_or_below_budget (max_bytes : Nat) (st : cache_state)
    (h : usage st ≤ max_bytes) : sweep max_bytes st = st := by
  simp [sweep, h]

/-- Witness for C5 at the inclusive boundary: usage exactly equal to the max
(2 bytes against a 2-byte budget) is left untouched, and so is an empty
cache. -/
theorem sweep_at_or_below_budget_witness :
    (usage ⟨[(["k"], [7, 7])], [[]], [], 0⟩ ≤ 2 ∧
      sweep 2 ⟨[(["k"], [7, 7])], [[]], [], 0⟩ = ⟨[(["k"], [7, 7])], [[]], [], 0⟩) ∧
    (usage ⟨[], [[]], [], 0⟩ ≤ 2 ∧ sweep 2 ⟨[], [[]], [], 0⟩ = ⟨[], [[]], [], 0⟩) :=
  ⟨⟨by decide, sweep_at_or_below_budget 2 _ (by decide)⟩,
   ⟨by decide, sweep_at_or_below_budget 2 _ (by decide)⟩⟩

/-- C9: absence is not an error — on a guard-accepted key with no entry,
`get` returns `none` (state untouched), `is_cached` reports `not_available`,
and `invalidate` succeeds as a no-op; and invalidating an existing entry
makes `is_cached` report `not_available` immediately after. -/
theorem absence_not_error (st : cache_state) (key rel : Path) (now : Nat)
    (hg : access_guard key = .ok rel) :
    (lookupA st.files rel = none →
       get key now st = .ok (none, st) ∧
       is_cached key st = .not_available ∧
       invalidate key st = .ok st) ∧
    (∀ d, lookupA st.files rel = some d →
       ∃ st', invalidate key st = .ok st' ∧ is_cached key st' = .not_available) := by
  constructor
  · intro h
    exact ⟨by simp [get, hg, h], by simp [is_cached, hg, h], by simp [invalidate, hg, h]⟩
  · intro d h
    refine ⟨remove_file rel st, by simp [invalidate, hg, h], ?_⟩
    simp [is_cached, hg, remove_file, lookupA_eraseA]

/-- Witness for C9: a never-put key misses cleanly; after invalidating a put
key it is no longer cached. -/
theorem absence_not_error_witness :
    (access_guard ["nope.txt"] = .ok ["nope.txt"] ∧
      lookupA (cache_state.files ⟨[], [[]], [], 0⟩) ["nope.txt"] = none ∧
      (get ["nope.txt"] 3 ⟨[], [[]], [], 0⟩ = .ok (none, ⟨[], [[]], [], 0⟩) ∧
        is_cached ["nope.txt"] ⟨[], [[]], [], 0⟩ = .not_available ∧
        invalidate ["nope.txt"] ⟨[], [[]], [], 0⟩ = .ok ⟨[], [[]], [], 0⟩)) ∧
    (lookupA (cache_state.files ⟨[(["f"], [1])], [[]], [], 0⟩) ["f"] = some [1] ∧
      ∃ st', invalidate ["f"] ⟨[(["f"], [1])], [[]], [], 0⟩ = .ok st' ∧
        is_cached ["f"] st' = .not_available) :=
  ⟨⟨by rfl, by rfl,
    (absence_not_error ⟨[], [[]], [], 0⟩ ["nope.txt"] ["nope.txt"] 3 (by rfl)).1
      (by rfl)⟩,
   ⟨by rfl,
    (absence_not_error ⟨[(["f"], [1])], [[]], [], 0⟩ ["f"] ["f"] 0 (by rfl)).2
      [1] (by rfl)⟩⟩

theorem tracker_add_lookup_self {κ : Type} [DecidableEq κ] (table : List (κ × Nat))
    (k : κ) (t : Nat) :
    ∃ v, lookupA (tracker_add table k t) k = some v ∧ t ≤ v ∧
      ∀ v0, lookupA table k = some v0 → v0 ≤ v := by
  unfold tracker_add
  cases h : lookupA table k with
  | none =>
    refine ⟨quantize t, by simp [lookupA], le_quantize t, ?_⟩
    intro v0 hv0
    cases hv0
  | some v0 =>
    refine ⟨max v0 (quantize t), lookupA_updateA table k _ v0 h,
      le_trans (le_quantize t) (le_max_right _ _), ?_⟩
    intro v1 hv1
    cases hv1
    exact le_max_left _ _

theorem tracker_add_lookup_other {κ : Type} [DecidableEq κ] (table : List (κ × Nat))
    (k k' : κ) (t : Nat) (h : k' ≠ k) :
    lookupA (tracker_add table k t) k' = lookupA table k' := by
  unfold tracker_add
  cases hh : lookupA table k with
  | none =>
    have hkk : ¬(k = k') := fun hkk => h hkk.symm
    simp [lookupA, hkk]
  | some v => exact lookupA_updateA_ne table k k' _ h

theorem estimate_foldl_untouched (ops : List (String × Nat)) :
    ∀ (tr : access_time_tracker) (k : String), k ∉ ops.map Prod.fst →
      estimate_timestamp (ops.foldl (fun tr e => add_timestamp tr e.1 e.2) tr) k
        = estimate_timestamp tr k := by
  induction ops with
  | nil => intro tr k _; rfl
  | cons e rest ih =>
    intro tr k hk
    rw [List.map_cons, List.mem_cons] at hk
    push_neg at hk
    rw [List.foldl_cons, ih _ k hk.2]
    exact tracker_add_lookup_other tr.table e.1 k e.2 hk.1

theorem estimate_foldl_mono (ops : List (String × Nat)) :
    ∀ (tr : access_time_tracker) (k : String) (v : Nat),
      estimate_timestamp tr k = some v →
      ∃ v', estimate_timestamp (ops.foldl (fun tr e => add_timestamp tr e.1 e.2) tr) k
          = some v' ∧ v ≤ v' := by
  induction ops with
  | nil => exact fun tr k v h => ⟨v, h, Nat.le_refl v⟩
  | cons e rest ih =>
    intro tr k v h
    rw [List.foldl_cons]
    by_cases hk : k = e.1
    · have h' : lookupA tr.table e.1 = some v := by rw [← hk]; exact h
      obtain ⟨v1, hv1, _, hmax⟩ := tracker_add_lookup_self tr.table e.1 e.2
      have hv1' : estimate_timestamp (add_timestamp tr e.1 e.2) k = some v1 := by
        rw [hk]; exact hv1
      obtain ⟨v', hv', hle⟩ := ih _ k v1 hv1'
      exact ⟨v', hv', le_trans (hmax v h') hle⟩
    · have : estimate_timestamp (add_timestamp tr e.1 e.2) k = some v := by
        rw [show estimate_timestamp (add_timestamp tr e.1 e.2) k
            = lookupA (tracker_add tr.table e.1 e.2) k from rfl,
          tracker_add_lookup_other tr.table e.1 k e.2 hk]
        exact h
      exact ih _ k v this

theorem estimate_record_mem (ops : List (String × Nat)) :
    ∀ (tr : access_time_tracker) (k : String) (t : Nat), (k, t) ∈ ops →
      ∃ v, estimate_timestamp (ops.foldl (fun tr e => add_timestamp tr e.1 e.2) tr) k
          = some v ∧ t ≤ v := by
  induction ops with
  | nil => intro tr k t h; cases h
  | cons e rest ih =>
    intro tr k t h
    rw [List.foldl_cons]
    rcases List.mem_cons.mp h with he | hrest
    · cases he
      obtain ⟨v1, hv1, ht1, _⟩ := tracker_add_lookup_self tr.table k t
      obtain ⟨v', hv', hle⟩ := estimate_foldl_mono rest (add_timestamp tr k t) k v1 hv1
      exact ⟨v', hv', le_trans ht1 hle⟩
    · exact ih _ k t hrest

/-- C6: `estimate_timestamp` returns `none` for a key never recorded;
immediately after `add_timestamp(k, t)` it returns a value `≥ t`; and any
further `add_timestamp` call only moves a stored value monotonically
forward. -/
theorem tracker_never_understates :
    (∀ (ops : List (String × Nat)) (k : String), k ∉ ops.map Prod.fst →
       estimate_timestamp (record_all ops) k = none) ∧
    (∀ (tr : access_time_tracker) (k : String) (t : Nat),
       ∃ v, estimate_timestamp (add_timestamp tr k t) k = some v ∧ t ≤ v) ∧
    (∀ (tr : access_time_tracker) (k : String) (t : Nat) (k' : String) (v : Nat),
       estimate_timestamp tr k' = some v →
       ∃ v', estimate_timestamp (add_timestamp tr k t) k' = some v' ∧ v ≤ v') := by
  refine ⟨?_, ?_, ?_⟩
  · intro ops k hk
    rw [record_all, estimate_foldl_untouched ops ⟨[]⟩ k hk]
    rfl
  · intro tr k t
    obtain ⟨v, hv, ht, _⟩ := tracker_add_lookup_self tr.table k t
    exact ⟨v, hv, ht⟩
  · intro tr k t k' v h
    by_cases hk : k' = k
    · subst hk
      obtain ⟨v1, hv1, _, hmax⟩ := tracker_add_lookup_self tr.table k' t
      exact ⟨v1, hv1, hmax v h⟩
    · refine ⟨v, ?_, Nat.le_refl v⟩
      rw [show estimate_timestamp (add_timestamp tr k t) k'
          = lookupA (tracker_add tr.table k t) k' from rfl,
        tracker_add_lookup_other tr.table k k' t hk]
      exact h

/-- Witness for C6: a never-recorded key estimates to `none`; an add at time
`1653000000` estimates at least that; a later add for another key keeps the
stored value. -/
theorem tracker_never_understates_witness :
    (("key1" : String) ∉ ([("key0", 5)] : List (String × Nat)).map Prod.fst ∧
      estimate_timestamp (record_all [("key0", 5)]) "key1" = none) ∧
    (∃ v, estimate_timestamp (add_timestamp ⟨[]⟩ "key0" 1653000000) "key0"
        = some v ∧ 1653000000 ≤ v) ∧
    (estimate_timestamp ⟨[("key0", 2000)]⟩ "key0" = some 2000 ∧
      ∃ v', estimate_timestamp (add_timestamp ⟨[("key0", 2000)]⟩ "key1" 7) "key0"
          = some v' ∧ 2000 ≤ v') :=
  ⟨⟨by decide, tracker_never_understates.1 [("key0", 5)] "key1" (by decide)⟩,
   tracker_never_understates.2.1 ⟨[]⟩ "key0" 1653000000,
   ⟨by rfl, tracker_never_understates.2.2 ⟨[("key0", 2000)]⟩ "key1" 7 "key0" 2000
     (by rfl)⟩⟩

theorem map_ofNat_toNat (l : List Char) :
    List.map (Char.ofNat ∘ Char.toNat) l = l := by
  induction l with
  | nil => rfl
  | cons c cs ih =>
    simp only [List.map_cons, ih, Function.comp]
    rw [Char.ofNat_toNat]

theorem parseEntry_encodeEntry (e : String × Nat) (tail : List Nat) :
    parseEntry (encodeEntry e ++ tail) = some (e, tail) := by
  obtain ⟨s, t⟩ := e
  have hl : (List.map Char.toNat s.data).length = s.length := by
    rw [List.length_map]; rfl
  have htake : List.take s.length (List.map Char.toNat s.data ++ t :: tail)
      = List.map Char.toNat s.data := by
    rw [← hl]; exact List.take_left _ _
  have hdrop : List.drop s.length (List.map Char.toNat s.data ++ t :: tail)
      = t :: tail := by
    rw [← hl]; exact List.drop_left _ _
  have hlt : ¬((List.map Char.toNat s.data ++ t :: tail).length < s.length) := by
    rw [List.length_append, hl]
    omega
  have hassoc : encodeEntry (s, t) ++ tail
      = s.length :: (List.map Char.toNat s.data ++ (t :: tail)) := by
    show (s.length :: (List.map Char.toNat s.data ++ t :: [])) ++ tail = _
    rw [List.cons_append, List.append_assoc]
    rfl
  rw [hassoc]
  simp only [parseEntry]
  rw [if_neg hlt, hdrop]
  simp [htake, map_ofNat_toNat]

theorem parseEntries_encode (l : List (String × Nat)) :
    ∀ tail, parseEntries l.length
        (l.foldr (fun e acc => encodeEntry e ++ acc) tail) = some (l, tail) := by
  induction l with
  | nil => intro tail; rfl
  | cons e rest ih =>
    intro tail
    have h1 : parseEntries (e :: rest).length
        ((e :: rest).foldr (fun e acc => encodeEntry e ++ acc) tail)
      = (parseEntry (encodeEntry e
            ++ rest.foldr (fun e acc => encodeEntry e ++ acc) tail)).bind
          (fun er => (parseEntries rest.length er.2).bind
            (fun esr => some (er.1 :: esr.1, esr.2))) := rfl
    rw [h1, parseEntry_encodeEntry]
    show (parseEntries rest.length
        (rest.foldr (fun e acc => encodeEntry e ++ acc) tail)).bind
      (fun esr => some (e :: esr.1, esr.2)) = some (e :: rest, tail)
    rw [ih tail]
    rfl

/-- C7: serializing the access-time index and loading the bytes into a fresh
index is an exact round trip of the held (key, timestamp) pairs — including
the empty index — so every key recorded via `add_timestamp` is present after
reload with an estimate at least the recorded time. -/
theorem tracker_serializer_roundtrip :
    (∀ tr : access_time_tracker, from_iobuf (to_iobuf tr) = some tr) ∧
    from_iobuf (to_iobuf ⟨[]⟩) = some ⟨[]⟩ ∧
    (∀ (ops : List (String × Nat)) (k : String) (t : Nat), (k, t) ∈ ops →
       ∃ tr', from_iobuf (to_iobuf (record_all ops)) = some tr' ∧
         ∃ v, estimate_timestamp tr' k = some v ∧ t ≤ v) := by
  have hrt : ∀ tr : access_time_tracker, from_iobuf (to_iobuf tr) = some tr := by
    intro tr
    have h1 : from_iobuf (to_iobuf tr)
        = (parseEntries tr.table.length
            (tr.table.foldr (fun e acc => encodeEntry e ++ acc) [])).bind
          (fun esr => if esr.2 = [] then some ⟨esr.1⟩ else none) := rfl
    rw [h1, parseEntries_encode tr.table []]
    rfl
  refine ⟨hrt, hrt ⟨[]⟩, ?_⟩
  intro ops k t hmem
  refine ⟨record_all ops, hrt _, ?_⟩
  exact estimate_record_mem ops ⟨[]⟩ k t hmem

/-- Witness for C7: recording two keys, serializing and reloading recovers
both with estimates at least the recorded times. -/
theorem tracker_serializer_roundtrip_witness :
    (("a", 10) ∈ ([("a", 10), ("b", 20)] : List (String × Nat)) ∧
      ∃ tr', from_iobuf (to_iobuf (record_all [("a", 10), ("b", 20)])) = some tr' ∧
        ∃ v, estimate_timestamp tr' "a" = some v ∧ 10 ≤ v) ∧
    (("b", 20) ∈ ([("a", 10), ("b", 20)] : List (String × Nat)) ∧
      ∃ tr', from_iobuf (to_iobuf (record_all [("a", 10), ("b", 20)])) = some tr' ∧
        ∃ v, estimate_timestamp tr' "b" = some v ∧ 20 ≤ v) :=
  ⟨⟨by decide,
    tracker_serializer_roundtrip.2.2 [("a", 10), ("b", 20)] "a" 10 (by decide)⟩,
   ⟨by decide,
    tracker_serializer_roundtrip.2.2 [("a", 10), ("b", 20)] "b" 20 (by decide)⟩⟩

theorem eraseA_eq_filter {κ α : Type} [DecidableEq κ] (l : List (κ × α)) (k : κ) :
    eraseA l k = l.filter (fun e => decide (e.1 ≠ k)) := by
  induction l with
  | nil => rfl
  | cons e rest ih =>
    obtain ⟨q, v⟩ := e
    by_cases hq : q = k
    · simp [eraseA, hq, List.filter_cons, ih]
    · simp [eraseA, hq, List.filter_cons, ih]

theorem eraseA_sublist {κ α : Type} [DecidableEq κ] (l : List (κ × α)) (k : κ) :
    List.Sublist (eraseA l k) l := by
  rw [eraseA_eq_filter]
  exact List.filter_sublist l

theorem perm_eraseA (l : List (Path × Data)) (p : Path) (d : Data)
    (rest : List (Path × Data)) (hnodup : (l.map Prod.fst).Nodup)
    (hperm : l.Perm ((p, d) :: rest)) : (eraseA l p).Perm rest := by
  have hfil := hperm.filter (fun e => decide (e.1 ≠ p))
  have hnodup2 : (((p, d) :: rest).map Prod.fst).Nodup :=
    (hperm.map Prod.fst).nodup hnodup
  rw [List.map_cons, List.nodup_cons] at hnodup2
  have hrest : rest.filter (fun e => decide (e.1 ≠ p)) = rest := by
    refine List.filter_eq_self.mpr ?_
    intro e he
    simp only [decide_eq_true_eq]
    intro hh
    have hmem : e.1 ∈ rest.map Prod.fst := List.mem_map_of_mem Prod.fst he
    rw [hh] at hmem
    exact hnodup2.1 hmem
  rw [List.filter_cons] at hfil
  simp only [decide_eq_true_eq, ne_eq, not_true_eq_false] at hfil
  rw [hrest] at hfil
  rw [eraseA_eq_filter]
  simpa using hfil

theorem sizeSum_cons (e : Path × Data) (l : List (Path × Data)) :
    sizeSum (e :: l) = e.2.length + sizeSum l := by
  simp [sizeSum]

theorem sizeSum_perm (l l' : List (Path × Data)) (h : l.Perm l') :
    sizeSum l = sizeSum l' := by
  unfold sizeSum
  exact (h.map (fun e => e.2.length)).sum_eq

instance evictLE_total (at0 : List (Path × Nat)) :
    IsTotal (Path × Data) (evictLE at0) := by
  constructor
  intro a b
  unfold evictLE
  cases lookupA at0 a.1 <;> cases lookupA at0 b.1 <;> (simp [oleOpt]; try omega)

instance evictLE_trans (at0 : List (Path × Nat)) :
    IsTrans (Path × Data) (evictLE at0) := by
  constructor
  intro a b c
  unfold evictLE
  cases lookupA at0 a.1 <;> cases lookupA at0 b.1 <;> cases lookupA at0 c.1 <;>
    (simp [oleOpt]; try omega)

theorem evictLoop_spec (max_bytes : Nat) :
    ∀ (cand : List (Path × Data)) (st : cache_state),
      (st.files.map Prod.fst).Nodup →
      st.files.Perm cand →
      ∃ k, k ≤ cand.length ∧
        (evictLoop max_bytes cand st).files.Perm (cand.drop k) ∧
        (evictLoop max_bytes cand st).total_cleaned
          = st.total_cleaned + sizeSum (cand.take k) ∧
        (usage (evictLoop max_bytes cand st) ≤ max_bytes ∨
          (evictLoop max_bytes cand st).files = []) := by
  intro cand
  induction cand with
  | nil =>
    intro st _ hperm
    refine ⟨0, Nat.le_refl 0, ?_, ?_, ?_⟩
    · simpa [evictLoop] using hperm
    · simp [evictLoop, sizeSum]
    · right
      show st.files = []
      exact List.perm_nil.mp hperm
  | cons pd rest ih =>
    intro st hnodup hperm
    obtain ⟨p, d⟩ := pd
    by_cases hle : usage st ≤ max_bytes
    · have heq : evictLoop max_bytes ((p, d) :: rest) st = st := by
        simp [evictLoop, hle]
      refine ⟨0, Nat.zero_le _, ?_, ?_, ?_⟩
      · rw [heq, List.drop_zero]; exact hperm
      · rw [heq, List.take_zero]; simp [sizeSum]
      · rw [heq]; exact Or.inl hle
    · have heq : evictLoop max_bytes ((p, d) :: rest) st
          = evictLoop max_bytes rest
              { files := eraseA st.files p
                dirs := pruneDirs (eraseA st.files p) st.dirs (ancestorsDesc p)
                atimes := eraseA st.atimes p
                total_cleaned := st.total_cleaned + d.length } := by
        simp [evictLoop, hle, remove_file]
      have hperm1 : (eraseA st.files p).Perm rest :=
        perm_eraseA st.files p d rest hnodup hperm
      have hnodup1 : ((eraseA st.files p).map Prod.fst).Nodup :=
        hnodup.sublist ((eraseA_sublist st.files p).map Prod.fst)
      obtain ⟨k, hk, hfp, hcl, hstop⟩ := ih
        { files := eraseA st.files p
          dirs := pruneDirs (eraseA st.files p) st.dirs (ancestorsDesc p)
          atimes := eraseA st.atimes p
          total_cleaned := st.total_cleaned + d.length } hnodup1 hperm1
      refine ⟨k + 1, Nat.succ_le_succ hk, ?_, ?_, ?_⟩
      · rw [heq, List.drop_succ_cons]; exact hfp
      · rw [heq, List.take_succ_cons, sizeSum_cons, hcl]
        dsimp only
        omega
      · rw [heq]; exact hstop

/-- C4: when total usage is strictly above the configured max, one sweep
splits the candidates, ordered ascending by estimated access time with
index-absent entries first, into a deleted front segment and a kept back
segment: every deleted entry's estimate is at most every survivor's (so the
oldest go first and the survivors are the most recently accessed), the
bytes-reclaimed counter grows by exactly the total size of the deleted
entries, and the sweep stops once usage is at or below the max (or nothing
is left). -/
theorem sweep_evicts_oldest_first (max_bytes : Nat) (st : cache_state)
    (hnodup : (st.files.map Prod.fst).Nodup)
    (hover : max_bytes < usage st) :
    ∃ deleted kept,
      List.insertionSort (evictLE st.atimes) st.files = deleted ++ kept ∧
      st.files.Perm (deleted ++ kept) ∧
      (sweep max_bytes st).files.Perm kept ∧
      (∀ a ∈ deleted, ∀ b ∈ kept, evictLE st.atimes a b) ∧
      (sweep max_bytes st).total_cleaned = st.total_cleaned + sizeSum deleted ∧
      (usage (sweep max_bytes st) ≤ max_bytes ∨ (sweep max_bytes st).files = []) := by
  have hsweep : sweep max_bytes st
      = evictLoop max_bytes (List.insertionSort (evictLE st.atimes) st.files) st := by
    simp [sweep, Nat.not_le.mpr hover]
  have hperm0 : st.files.Perm (List.insertionSort (evictLE st.atimes) st.files) :=
    (List.perm_insertionSort _ _).symm
  obtain ⟨k, _, hfp, hcl, hstop⟩ :=
    evictLoop_spec max_bytes (List.insertionSort (evictLE st.atimes) st.files)
      st hnodup hperm0
  refine ⟨(List.insertionSort (evictLE st.atimes) st.files).take k,
    (List.insertionSort (evictLE st.atimes) st.files).drop k,
    (List.take_append_drop k _).symm, ?_, ?_, ?_, ?_, ?_⟩
  · rw [List.take_append_drop k _]
    exact hperm0
  · rw [hsweep]; exact hfp
  · have hsorted := List.sorted_insertionSort (evictLE st.atimes) st.files
    rw [← List.take_append_drop k (List.insertionSort (evictLE st.atimes) st.files)]
      at hsorted
    exact (List.pairwise_append.mp hsorted).2.2
  · rw [hsweep]; exact hcl
  · rw [hsweep]; exact hstop

/-- Witness for C4: two 2-byte entries against a 2-byte budget, the first
older in the index — the sweep deletes exactly the older entry and keeps the
newer. -/
theorem sweep_evicts_oldest_first_witness :
    ((cache_state.files
        ⟨[(["k1"], [1, 2]), (["k2"], [3, 4])], [[]],
          [(["k1"], 1000), (["k2"], 2000)], 0⟩).map Prod.fst).Nodup ∧
    2 < usage ⟨[(["k1"], [1, 2]), (["k2"], [3, 4])], [[]],
      [(["k1"], 1000), (["k2"], 2000)], 0⟩ ∧
    ∃ deleted kept,
      List.insertionSort
          (evictLE (cache_state.atimes ⟨[(["k1"], [1, 2]), (["k2"], [3, 4])], [[]],
            [(["k1"], 1000), (["k2"], 2000)], 0⟩))
          (cache_state.files ⟨[(["k1"], [1, 2]), (["k2"], [3, 4])], [[]],
            [(["k1"], 1000), (["k2"], 2000)], 0⟩) = deleted ++ kept ∧
      (cache_state.files ⟨[(["k1"], [1, 2]), (["k2"], [3, 4])], [[]],
        [(["k1"], 1000), (["k2"], 2000)], 0⟩).Perm (deleted ++ kept) ∧
      (sweep 2 ⟨[(["k1"], [1, 2]), (["k2"], [3, 4])], [[]],
        [(["k1"], 1000), (["k2"], 2000)], 0⟩).files.Perm kept ∧
      (∀ a ∈ deleted, ∀ b ∈ kept,
        evictLE (cache_state.atimes ⟨[(["k1"], [1, 2]), (["k2"], [3, 4])], [[]],
          [(["k1"], 1000), (["k2"], 2000)], 0⟩) a b) ∧
      (sweep 2 ⟨[(["k1"], [1, 2]), (["k2"], [3, 4])], [[]],
          [(["k1"], 1000), (["k2"], 2000)], 0⟩).total_cleaned
        = (cache_state.total_cleaned ⟨[(["k1"], [1, 2]), (["k2"], [3, 4])], [[]],
            [(["k1"], 1000), (["k2"], 2000)], 0⟩) + sizeSum deleted ∧
      (usage (sweep 2 ⟨[(["k1"], [1, 2]), (["k2"], [3, 4])], [[]],
          [(["k1"], 1000), (["k2"], 2000)], 0⟩) ≤ 2 ∨
        (sweep 2 ⟨[(["k1"], [1, 2]), (["k2"], [3, 4])], [[]],
          [(["k1"], 1000), (["k2"], 2000)], 0⟩).files = []) :=
  ⟨by decide, by decide,
   sweep_evicts_oldest_first 2
     ⟨[(["k1"], [1, 2]), (["k2"], [3, 4])], [[]],
       [(["k1"], 1000), (["k2"], 2000)], 0⟩ (by decide) (by decide)⟩

theorem isPre_length_le (a : Path) : ∀ b, isPre a b = true → a.length ≤ b.length := by
  induction a with
  | nil => intro b _; exact Nat.zero_le _
  | cons x xs ih =>
    intro b h
    cases b with
    | nil => simp [isPre] at h
    | cons y ys =>
      rw [show isPre (x :: xs) (y :: ys) = ((x == y) && isPre xs ys) from rfl,
        Bool.and_eq_true] at h
      exact Nat.succ_le_succ (ih ys h.2)

theorem isPre_eq_of_length (a : Path) : ∀ b, isPre a b = true →
    a.length = b.length → a = b := by
  induction a with
  | nil =>
    intro b _ hlen
    cases b with
    | nil => rfl
    | cons y ys => simp at hlen
  | cons x xs ih =>
    intro b h hlen
    cases b with
    | nil => simp [isPre] at h
    | cons y ys =>
      rw [show isPre (x :: xs) (y :: ys) = ((x == y) && isPre xs ys) from rfl,
        Bool.and_eq_true] at h
      rw [List.length_cons, List.length_cons] at hlen
      rw [eq_of_beq h.1, ih ys h.2 (Nat.succ_injective hlen)]

theorem pruneDirs_subset (files : List (Path × Data)) :
    ∀ (anc ds : List Path) (x : Path), x ∈ pruneDirs files ds anc → x ∈ ds := by
  intro anc
  induction anc with
  | nil => intro ds x h; exact h
  | cons d rest ih =>
    intro ds x h
    by_cases hne : dirNonEmpty files ds d = true
    · rw [show pruneDirs files ds (d :: rest) = pruneDirs files ds rest from by
        simp [pruneDirs, hne]] at h
      exact ih ds x h
    · rw [show pruneDirs files ds (d :: rest)
          = pruneDirs files (ds.filter fun d2 => decide (d2 ≠ d)) rest from by
        simp [pruneDirs, hne]] at h
      exact (List.mem_filter.mp (ih _ x h)).1

theorem pruneDirs_mem_notin (files : List (Path × Data)) :
    ∀ (anc ds : List Path) (x : Path), x ∉ anc →
      (x ∈ pruneDirs files ds anc ↔ x ∈ ds) := by
  intro anc
  induction anc with
  | nil => intro ds x _; exact Iff.rfl
  | cons d rest ih =>
    intro ds x hx
    rw [List.mem_cons] at hx
    push_neg at hx
    by_cases hne : dirNonEmpty files ds d = true
    · rw [show pruneDirs files ds (d :: rest) = pruneDirs files ds rest from by
        simp [pruneDirs, hne]]
      exact ih ds x hx.2
    · rw [show pruneDirs files ds (d :: rest)
          = pruneDirs files (ds.filter fun d2 => decide (d2 ≠ d)) rest from by
        simp [pruneDirs, hne]]
      rw [ih _ x hx.2, List.mem_filter]
      constructor
      · exact fun h => h.1
      · intro h
        exact ⟨h, by simp [hx.1]⟩

theorem pruneDirs_no_empty (files : List (Path × Data)) :
    ∀ (anc : List Path), anc.Pairwise (fun a b => b.length < a.length) →
      ∀ (ds : List Path) (x : Path), x ∈ anc →
        x ∈ pruneDirs files ds anc →
        dirNonEmpty files (pruneDirs files ds anc) x = true := by
  intro anc
  induction anc with
  | nil => intro _ ds x hx; cases hx
  | cons dd rest ih =>
    intro hord ds x hx hmem
    rw [List.pairwise_cons] at hord
    obtain ⟨hlens, hrest⟩ := hord
    by_cases hne : dirNonEmpty files ds dd = true
    · rw [show pruneDirs files ds (dd :: rest) = pruneDirs files ds rest from by
        simp [pruneDirs, hne]] at hmem ⊢
      rcases List.mem_cons.mp hx with hxd | hxr
      · subst hxd
        unfold dirNonEmpty at hne ⊢
        rcases Bool.or_eq_true_iff.mp hne with hf | hd
        · exact Bool.or_eq_true_iff.mpr (Or.inl hf)
        · obtain ⟨w, hw, hwp⟩ := List.any_eq_true.mp hd
          obtain ⟨h1, h2⟩ := Bool.and_eq_true_iff.mp hwp
          have hwd : w ≠ x := of_decide_eq_true h2
          have hle := isPre_length_le x w h1
          have hlt : x.length < w.length := by
            rcases Nat.lt_or_ge x.length w.length with h | h
            · exact h
            · exact absurd (isPre_eq_of_length x w h1 (Nat.le_antisymm hle h)).symm hwd
          have hwnr : w ∉ rest := by
            intro hwr
            have := hlens w hwr
            omega
          have hwin : w ∈ pruneDirs files ds rest :=
            (pruneDirs_mem_notin files rest ds w hwnr).mpr hw
          refine Bool.or_eq_true_iff.mpr (Or.inr ?_)
          exact List.any_eq_true.mpr ⟨w, hwin, Bool.and_eq_true_iff.mpr ⟨h1, h2⟩⟩
      · exact ih hrest ds x hxr hmem
    · rw [show pruneDirs files ds (dd :: rest)
          = pruneDirs files (ds.filter fun d2 => decide (d2 ≠ dd)) rest from by
        simp [pruneDirs, hne]] at hmem ⊢
      rcases List.mem_cons.mp hx with hxd | hxr
      · subst hxd
        exfalso
        have hxnr : x ∉ rest := by
          intro hxr2
          have := hlens x hxr2
          omega
        have hin := (pruneDirs_mem_notin files rest _ x hxnr).mp hmem
        rw [List.mem_filter] at hin
        have := hin.2
        simp at this
      · exact ih hrest _ x hxr hmem

theorem ancestorsDesc_sorted (p : Path) :
    (ancestorsDesc p).Pairwise (fun a b => b.length < a.length) := by
  unfold ancestorsDesc
  refine List.Pairwise.sublist (List.filter_sublist _) ?_
  rw [List.pairwise_reverse, List.pairwise_map]
  refine (List.pairwise_lt_range p.length).imp_of_mem ?_
  intro i j hi hj hij
  rw [List.mem_range] at hi hj
  simp only [List.length_take]
  omega

theorem ancestorsDesc_ne_nil (p x : Path) (h : x ∈ ancestorsDesc p) : x ≠ [] := by
  unfold ancestorsDesc at h
  rw [List.mem_filter] at h
  exact of_decide_eq_true h.2

/-- C8: removing an entry — by `invalidate`, or by eviction, which deletes
through the same `remove_file` path — prunes upward from the removed file:
only ancestor directories of the removed path can be removed (sibling
subdirectories all stay), the cache root `[]` always stays, and no surviving
ancestor directory is left empty (every now-empty ancestor was deleted). -/
theorem removal_prunes_empty_dirs (st : cache_state) (key rel : Path) (d0 : Data)
    (hg : access_guard key = .ok rel) (hfound : lookupA st.files rel = some d0) :
    invalidate key st = .ok (remove_file rel st) ∧
    ([] ∈ st.dirs → [] ∈ (remove_file rel st).dirs) ∧
    (∀ d ∈ st.dirs, d ∉ ancestorsDesc rel → d ∈ (remove_file rel st).dirs) ∧
    (∀ d, d ∈ (remove_file rel st).dirs → d ∈ st.dirs) ∧
    (∀ d, d ∈ ancestorsDesc rel → d ∈ (remove_file rel st).dirs →
       dirNonEmpty (remove_file rel st).files (remove_file rel st).dirs d = true) := by
  refine ⟨by simp [invalidate, hg, hfound], ?_, ?_, ?_, ?_⟩
  · intro h
    exact (pruneDirs_mem_notin (eraseA st.files rel) (ancestorsDesc rel) st.dirs []
      (fun hmem => (ancestorsDesc_ne_nil rel [] hmem) rfl)).mpr h
  · intro d hd hnot
    exact (pruneDirs_mem_notin (eraseA st.files rel) (ancestorsDesc rel) st.dirs d
      hnot).mpr hd
  · intro d hd
    exact pruneDirs_subset (eraseA st.files rel) (ancestorsDesc rel) st.dirs d hd
  · intro d hd hmem
    exact pruneDirs_no_empty (eraseA st.files rel) (ancestorsDesc rel)
      (ancestorsDesc_sorted rel) st.dirs d hd hmem

/-- Witness for C8: removing `a/b/f1` from a cache also holding `a/c/f2`
prunes the emptied `a/b` but keeps the sibling `a/c`, the parent `a` (still
non-empty) and the root. -/
theorem removal_prunes_empty_dirs_witness :
    access_guard ["a", "b", "f1"] = .ok ["a", "b", "f1"] ∧
    lookupA (cache_state.files
        ⟨[(["a", "b", "f1"], [1]), (["a", "c", "f2"], [2])],
          [[], ["a"], ["a", "b"], ["a", "c"]], [], 0⟩) ["a", "b", "f1"]
      = some [1] ∧
    (invalidate ["a", "b", "f1"]
        ⟨[(["a", "b", "f1"], [1]), (["a", "c", "f2"], [2])],
          [[], ["a"], ["a", "b"], ["a", "c"]], [], 0⟩
      = .ok (remove_file ["a", "b", "f1"]
          ⟨[(["a", "b", "f1"], [1]), (["a", "c", "f2"], [2])],
            [[], ["a"], ["a", "b"], ["a", "c"]], [], 0⟩)) ∧
    ([] ∈ (remove_file ["a", "b", "f1"]
        ⟨[(["a", "b", "f1"], [1]), (["a", "c", "f2"], [2])],
          [[], ["a"], ["a", "b"], ["a", "c"]], [], 0⟩).dirs) ∧
    (["a", "c"] ∈ (remove_file ["a", "b", "f1"]
        ⟨[(["a", "b", "f1"], [1]), (["a", "c", "f2"], [2])],
          [[], ["a"], ["a", "b"], ["a", "c"]], [], 0⟩).dirs) := by
  have h := removal_prunes_empty_dirs
    ⟨[(["a", "b", "f1"], [1]), (["a", "c", "f2"], [2])],
      [[], ["a"], ["a", "b"], ["a", "c"]], [], 0⟩
    ["a", "b", "f1"] ["a", "b", "f1"] [1] (by rfl) (by rfl)
  refine ⟨by rfl, by rfl, h.1, h.2.1 (by decide), ?_⟩
  refine h.2.2.1 ["a", "c"] (by decide) ?_
  decide

/-- C2: a key resolving outside the cache root is rejected by `put`, `get`
and `invalidate` with `OutOfBoundsKey`; an in-bounds key carrying the
reserved temp suffix is rejected by `put` with `ReservedKey`. In this model
an operation that returns an error returns no successor state at all, so a
rejected call mutates nothing: no file outside the root is created or
removed. -/
theorem out_of_bounds_and_reserved_rejected (key : Path) (data : Data)
    (now : Nat) (st : cache_state) :
    (key_resolves_inside key = false →
       put key data now st = .error .OutOfBoundsKey ∧
       get key now st = .error .OutOfBoundsKey ∧
       invalidate key st = .error .OutOfBoundsKey) ∧
    (key_resolves_inside key = true → has_tmp_suffix key = true →
       put key data now st = .error .ReservedKey) := by
  constructor
  · intro h
    have hcond : ¬(isPre cache_root (resolveSeg [] (cache_root ++ key)) = true
        ∧ resolveSeg [] (cache_root ++ key) ≠ cache_root) := by
      intro ⟨h1, h2⟩
      simp [key_resolves_inside, h1, h2] at h
    have hg : access_guard key = .error .OutOfBoundsKey := by
      simp only [access_guard]
      rw [if_neg hcond]
    exact ⟨by simp [put, hg], by simp [get, hg], by simp [invalidate, hg]⟩
  · intro h htmp
    have h1 : isPre cache_root (resolveSeg [] (cache_root ++ key)) = true := by
      simp [key_resolves_inside] at h
      exact h.1
    have h2 : resolveSeg [] (cache_root ++ key) ≠ cache_root := by
      simp [key_resolves_inside] at h
      exact h.2
    have hg : access_guard key = .error .ReservedKey := by
      simp only [access_guard]
      rw [if_pos ⟨h1, h2⟩, if_pos htmp]
    simp [put, hg]

/-- Witness for C2: `../escape/file.txt` and the root-name prefix collision
`../test_cache_dir_bar/file.txt` are rejected out-of-bounds by all three
operations; the in-bounds temp-suffix key `file_tmp` is rejected by `put`. -/
theorem out_of_bounds_and_reserved_rejected_witness :
    (key_resolves_inside ["..", "escape", "file.txt"] = false ∧
      (put ["..", "escape", "file.txt"] [1] 0 ⟨[], [[]], [], 0⟩
          = .error .OutOfBoundsKey ∧
        get ["..", "escape", "file.txt"] 0 ⟨[], [[]], [], 0⟩
          = .error .OutOfBoundsKey ∧
        invalidate ["..", "escape", "file.txt"] ⟨[], [[]], [], 0⟩
          = .error .OutOfBoundsKey)) ∧
    (key_resolves_inside ["..", "test_cache_dir_bar", "file.txt"] = false ∧
      (put ["..", "test_cache_dir_bar", "file.txt"] [1] 0 ⟨[], [[]], [], 0⟩
          = .error .OutOfBoundsKey ∧
        get ["..", "test_cache_dir_bar", "file.txt"] 0 ⟨[], [[]], [], 0⟩
          = .error .OutOfBoundsKey ∧
        invalidate ["..", "test_cache_dir_bar", "file.txt"] ⟨[], [[]], [], 0⟩
          = .error .OutOfBoundsKey)) ∧
    (key_resolves_inside ["file_tmp"] = true ∧ has_tmp_suffix ["file_tmp"] = true ∧
      put ["file_tmp"] [1] 0 ⟨[], [[]], [], 0⟩ = .error .ReservedKey) :=
  ⟨⟨by decide,
    (out_of_bounds_and_reserved_rejected ["..", "escape", "file.txt"] [1] 0
      ⟨[], [[]], [], 0⟩).1 (by decide)⟩,
   ⟨by decide,
    (out_of_bounds_and_reserved_rejected ["..", "test_cache_dir_bar", "file.txt"]
      [1] 0 ⟨[], [[]], [], 0⟩).1 (by decide)⟩,
   ⟨by decide, by decide,
    (out_of_bounds_and_reserved_rejected ["file_tmp"] [1] 0
      ⟨[], [[]], [], 0⟩).2 (by decide) (by decide)⟩⟩

end CloudStorage

namespace Raft

theorem registerAll_ids_ge (cbs : List Nat) :
    ∀ (st : group_manager_state) (i : Nat), i ∈ (registerAll st cbs).1 →
      st.notification_id ≤ i := by
  induction cbs with
  | nil => intro st i hi; cases hi
  | cons cb rest ih =>
    intro st i hi
    rcases List.mem_cons.mp hi with he | hrest
    · exact Nat.le_of_eq he.symm
    · have := ih (register_leadership_notification st cb).2 i hrest
      exact le_trans (Nat.le_succ _) this

theorem eraseFirstNotification_absent (l : List (Nat × Nat)) (id : Nat)
    (h : id ∉ l.map Prod.fst) : eraseFirstNotification l id = l := by
  induction l with
  | nil => rfl
  | cons e rest ih =>
    rw [List.map_cons, List.mem_cons] at h
    push_neg at h
    obtain ⟨i, c⟩ := e
    have hi : ¬(i = id) := fun hh => h.1 hh.symm
    show (if i = id then rest else (i, c) :: eraseFirstNotification rest id) = _
    rw [if_neg hi, ih h.2]

theorem eraseFirstNotification_nodup (l : List (Nat × Nat)) (id : Nat)
    (h : (l.map Prod.fst).Nodup) :
    eraseFirstNotification l id = l.filter (fun e => decide (e.1 ≠ id)) := by
  induction l with
  | nil => rfl
  | cons e rest ih =>
    rw [List.map_cons, List.nodup_cons] at h
    obtain ⟨i, c⟩ := e
    by_cases hi : i = id
    · subst hi
      have habs : ∀ e2 ∈ rest, (fun e => decide (e.1 ≠ i)) e2 = true := by
        intro e2 he2
        simp only [decide_eq_true_eq]
        intro hh
        have hmem : e2.1 ∈ rest.map Prod.fst := List.mem_map_of_mem Prod.fst he2
        rw [hh] at hmem
        exact h.1 hmem
      show (if i = i then rest else (i, c) :: eraseFirstNotification rest i)
          = List.filter (fun e => decide (e.1 ≠ i)) ((i, c) :: rest)
      rw [if_pos rfl, List.filter_cons, if_neg (by simp)]
      rw [List.filter_eq_self.mpr habs]
    · show (if i = id then rest else (i, c) :: eraseFirstNotification rest id)
          = List.filter (fun e => decide (e.1 ≠ id)) ((i, c) :: rest)
      rw [if_neg hi, List.filter_cons, if_pos (by simp [hi]), ih h.2]

/-- C10: successive `register_leadership_notification` calls return distinct,
strictly increasing ids; registering preserves the registry invariant;
`unregister_leadership_notification` with an absent id leaves the state
unchanged and reports no error; with a present id (under the invariant's
distinctness) it removes exactly the entry registered under that id, keeping
every other registration in place and in order. -/
theorem leadership_notification_registry :
    (∀ (st : group_manager_state) (cbs : List Nat),
       List.Pairwise (· < ·) (registerAll st cbs).1) ∧
    (∀ (st : group_manager_state) (cb : Nat), gm_inv st →
       gm_inv (register_leadership_notification st cb).2) ∧
    (∀ (st : group_manager_state) (id : Nat),
       id ∉ st.notifications.map Prod.fst →
       unregister_leadership_notification st id = st) ∧
    (∀ (st : group_manager_state) (id : Nat),
       (st.notifications.map Prod.fst).Nodup →
       (unregister_leadership_notification st id).notifications
         = st.notifications.filter (fun e => decide (e.1 ≠ id))) := by
  refine ⟨?_, ?_, ?_, ?_⟩
  · intro st cbs
    induction cbs generalizing st with
    | nil => exact List.Pairwise.nil
    | cons cb rest ih =>
      refine List.pairwise_cons.mpr ⟨?_, ih _⟩
      intro i hi
      have := registerAll_ids_ge rest (register_leadership_notification st cb).2 i hi
      exact lt_of_lt_of_le (Nat.lt_succ_self _) this
  · intro st cb hinv
    obtain ⟨hpair, hbound⟩ := hinv
    constructor
    · show List.Pairwise (· < ·)
        ((st.notifications ++ [(st.notification_id, cb)]).map Prod.fst)
      rw [List.map_append]
      refine List.pairwise_append.mpr ⟨hpair, List.pairwise_singleton _ _, ?_⟩
      intro i hi j hj
      rw [List.map_singleton, List.mem_singleton] at hj
      exact hj ▸ hbound i hi
    · intro i hi
      show i < st.notification_id + 1
      rw [show (register_leadership_notification st cb).2.notifications
          = st.notifications ++ [(st.notification_id, cb)] from rfl,
        List.map_append] at hi
      rcases List.mem_append.mp hi with h1 | h2
      · exact lt_trans (hbound i h1) (Nat.lt_succ_self _)
      · rw [List.map_singleton, List.mem_singleton] at h2
        exact h2 ▸ Nat.lt_succ_self _
  · intro st id h
    show ({ st with notifications := eraseFirstNotification st.notifications id }
        : group_manager_state) = st
    rw [eraseFirstNotification_absent st.notifications id h]
  · intro st id h
    exact eraseFirstNotification_nodup st.notifications id h

/-- Witness for C10: two registrations from a concrete state return ids
`3 < 4`; unregistering the absent id `9` changes nothing; unregistering id
`0` from `[(0, 10), (2, 20)]` leaves exactly `[(2, 20)]`. -/
theorem leadership_notification_registry_witness :
    List.Pairwise (· < ·) (registerAll ⟨3, [(0, 10), (2, 20)]⟩ [7, 8]).1 ∧
    (gm_inv ⟨3, [(0, 10), (2, 20)]⟩ →
      gm_inv (register_leadership_notification ⟨3, [(0, 10), (2, 20)]⟩ 7).2) ∧
    ((9 : Nat) ∉ ([(0, 10), (2, 20)] : List (Nat × Nat)).map Prod.fst ∧
      unregister_leadership_notification ⟨3, [(0, 10), (2, 20)]⟩ 9
        = ⟨3, [(0, 10), (2, 20)]⟩) ∧
    (([(0, 10), (2, 20)] : List (Nat × Nat)).map Prod.fst).Nodup ∧
    (unregister_leadership_notification ⟨3, [(0, 10), (2, 20)]⟩ 0).notifications
      = ([(0, 10), (2, 20)] : List (Nat × Nat)).filter (fun e => decide (e.1 ≠ 0)) :=
  ⟨leadership_notification_registry.1 ⟨3, [(0, 10), (2, 20)]⟩ [7, 8],
   leadership_notification_registry.2.1 ⟨3, [(0, 10), (2, 20)]⟩ 7,
   ⟨by decide, leadership_notification_registry.2.2.1 ⟨3, [(0, 10), (2, 20)]⟩ 9
     (by decide)⟩,
   by decide,
   leadership_notification_registry.2.2.2 ⟨3, [(0, 10), (2, 20)]⟩ 0 (by decide)⟩

end Raft
